import Mathlib

/-!
Verification of the single-slot memoizing cache adapter (`Cache` in
`src/noise_fns/cache.rs`).

The adapter wraps a source noise function `Source : NoiseFn<f64, DIM>` and
remembers the single most recent `(point, value)` pair.  `Cache::get` returns
the cached value when the stored point is element-wise `==`-equal to the input
point, and otherwise calls the source, overwrites the cache and returns the
fresh value.  The helper `quick_eq` asserts that the two slices have equal
length before comparing them element-wise.

Modelling choices:
* An `f64` value is modelled by `F64`: either `nan` (any NaN bit pattern) or
  `num q` with `q : ℚ` an exact numeric value.  IEEE-754 `==` is modelled by
  `F64.beq`: `nan` compares unequal to everything (itself included), numeric
  values compare by exact equality.
* The coordinate array `[f64; DIM]` and the cached `Vec<f64>` are both lists of
  `F64`; the fixed dimension is carried as a length hypothesis `p.length = DIM`
  on every input point, mirroring the array type.
* `Cache::get` mutates the adapter through `Cell`/`RefCell` interior
  mutability; this is modelled by explicit state passing: `Cache.get` returns
  the produced value, the updated cache, and a flag recording whether the
  wrapped source was invoked during the call.
* The `assert_eq!` inside `quick_eq` may panic; `quick_eq` therefore returns
  `Option Bool` (`none` = assertion failure) and `Cache.get` returns
  `Option GetResult`, propagating the panic.
-/

/-- Model of an IEEE-754 `f64` value as used by the cache: `nan` stands for any
NaN bit pattern, `num q` for a numeric value with exact rational payload. -/
inductive F64 where
  | nan : F64
  | num : ℚ → F64
deriving DecidableEq, Repr

/-- Model of `PartialEq::eq` on `f64` (the `==` used by `a.iter().eq(b)`):
NaN is unequal to everything, itself included; numeric values compare by
exact equality. -/
def F64.beq : F64 → F64 → Bool
  | .num a, .num b => a == b
  | _, _ => false

/-- Model of `a.iter().eq(b)`: element-wise comparison by `F64.beq`, true only
when both iterators end together. -/
def listEq : List F64 → List F64 → Bool
  | [], [] => true
  | x :: xs, y :: ys => F64.beq x y && listEq xs ys
  | _, _ => false

/-- Model of `fn quick_eq(a: &[f64], b: &[f64]) -> bool`: `assert_eq!` on the
lengths (modelled as `none` on failure), then `a.iter().eq(b)`. -/
def quick_eq (a b : List F64) : Option Bool :=
  if a.length = b.length then some (listEq a b) else none

/-- Model of `struct Cache<Source>`: the wrapped source (here directly a
function on points, the only capability `NoiseFn` provides), the
`value: Cell<Option<f64>>` slot and the `point: RefCell<Vec<f64>>` slot. -/
structure Cache where
  source : List F64 → F64
  value : Option F64
  point : List F64

/-- Model of `Cache::new`: stores the source, with an empty cached entry
(`value = None`, `point = Vec::new()`). -/
def Cache.new (source : List F64 → F64) : Cache :=
  { source := source, value := none, point := [] }

/-- Result of one call to `Cache::get`: the returned scalar, the cache state
after the call, and whether `self.source.get` was invoked during the call. -/
structure GetResult where
  value : F64
  cache : Cache
  sourceCalled : Bool

/-- Model of `Cache::get` for `NoiseFn<f64, DIM>`: if a value is cached and
`quick_eq` finds the stored point equal to the input, return the cached value
(source not called); otherwise call the source, overwrite both slots with the
new pair and return the fresh value.  `none` models the panic of the
`assert_eq!` inside `quick_eq` (which runs only in the `Some(value)` guard,
exactly as in the Rust `match`). -/
def Cache.get (c : Cache) (point : List F64) : Option GetResult :=
  match c.value with
  | some value =>
    match quick_eq c.point point with
    | none => none
    | some true => some ⟨value, c, false⟩
    | some false =>
      some ⟨c.source point, ⟨c.source, some (c.source point), point⟩, true⟩
  | none =>
    some ⟨c.source point, ⟨c.source, some (c.source point), point⟩, true⟩

/-- Cache states reachable from `Cache::new` by `get` calls whose input points
all have the fixed length `DIM` (the `[f64; DIM]` contract). -/
inductive Reachable (DIM : ℕ) : Cache → Prop where
  | init (source : List F64 → F64) : Reachable DIM (Cache.new source)
  | step {c : Cache} {p : List F64} {r : GetResult} :
      Reachable DIM c → p.length = DIM → c.get p = some r → Reachable DIM r.cache

/-- State invariant of the cache at dimension `DIM`: the entry is either
both-absent (`value = None`, point vector empty) or both-present with the
stored point of length `DIM` and the stored value the source output at the
stored point. -/
def CacheInv (DIM : ℕ) (c : Cache) : Prop :=
  (c.value = none ∧ c.point = []) ∨
    (c.point.length = DIM ∧ c.value = some (c.source c.point))

theorem F64.beq_eq {x y : F64} (h : F64.beq x y = true) : x = y := by
  cases x <;> cases y <;> simp_all [F64.beq]

theorem F64.beq_num_self (q : ℚ) : F64.beq (F64.num q) (F64.num q) = true := by
  simp [F64.beq]

theorem listEq_eq : ∀ {a b : List F64}, listEq a b = true → a = b := by
  intro a
  induction a with
  | nil =>
    intro b h
    cases b with
    | nil => rfl
    | cons y ys => simp [listEq] at h
  | cons x xs ih =>
    intro b h
    cases b with
    | nil => simp [listEq] at h
    | cons y ys =>
      simp only [listEq, Bool.and_eq_true] at h
      cases F64.beq_eq h.1
      cases ih h.2
      rfl

theorem listEq_self : ∀ {a : List F64}, F64.nan ∉ a → listEq a a = true := by
  intro a
  induction a with
  | nil => intro _; rfl
  | cons x xs ih =>
    intro h
    cases x with
    | nan => exact absurd (List.mem_cons_self _ _) h
    | num q =>
      simp only [listEq, Bool.and_eq_true]
      exact ⟨F64.beq_num_self q, ih fun hm => h (List.mem_cons_of_mem _ hm)⟩

theorem listEq_nan : ∀ (a : List F64) {b : List F64}, F64.nan ∈ b →
    listEq a b = false := by
  intro a
  induction a with
  | nil =>
    intro b hb
    cases b with
    | nil => cases hb
    | cons y ys => rfl
  | cons x xs ih =>
    intro b hb
    cases b with
    | nil => cases hb
    | cons y ys =>
      rcases List.mem_cons.1 hb with hy | hy
      · cases hy
        cases x <;> simp [listEq, F64.beq]
      · simp [listEq, ih hy]

theorem get_total_spec {DIM : ℕ} {c : Cache} {p : List F64}
    (hinv : CacheInv DIM c) (hp : p.length = DIM) :
    ∃ b, c.get p = some ⟨c.source p, ⟨c.source, some (c.source p), p⟩, b⟩ ∧
      ((∃ v, c.value = some v ∧ listEq c.point p = true) ↔ b = false) := by
  obtain ⟨source, value, point⟩ := c
  rcases hinv with ⟨hv, hpt⟩ | ⟨hlen, hv⟩
  · simp only at hv hpt
    subst hv
    exact ⟨true, rfl, by simp⟩
  · simp only at hlen hv
    subst hv
    have hq : quick_eq point p = some (listEq point p) := by
      simp [quick_eq, hlen, hp]
    by_cases heq : listEq point p = true
    · cases listEq_eq heq
      refine ⟨false, ?_, by simp [heq]⟩
      simp [Cache.get, hq, heq]
    · rw [Bool.not_eq_true] at heq
      refine ⟨true, ?_, by simp [heq]⟩
      simp [Cache.get, hq, heq]

theorem inv_step {DIM : ℕ} {c : Cache} {p : List F64} {r : GetResult}
    (hinv : CacheInv DIM c) (hp : p.length = DIM) (h : c.get p = some r) :
    CacheInv DIM r.cache := by
  obtain ⟨b, hb, -⟩ := get_total_spec hinv hp
  rw [h] at hb
  cases Option.some.inj hb
  exact Or.inr ⟨hp, rfl⟩

theorem reachable_inv {DIM : ℕ} {c : Cache} (h : Reachable DIM c) :
    CacheInv DIM c := by
  induction h with
  | init source => exact Or.inl ⟨rfl, rfl⟩
  | step _ hp hget ih => exact inv_step ih hp hget

theorem get_not_called_eq {c : Cache} {p : List F64} {r : GetResult}
    (h : c.get p = some r) (hc : r.sourceCalled = false) : c.point = p := by
  obtain ⟨source, value, point⟩ := c
  cases value with
  | none =>
    cases Option.some.inj h
    cases hc
  | some v =>
    simp only [Cache.get] at h
    cases hq : quick_eq point p with
    | none => rw [hq] at h; cases h
    | some eqRes =>
      rw [hq] at h
      cases eqRes with
      | false =>
        cases Option.some.inj h
        cases hc
      | true =>
        cases Option.some.inj h
        have : listEq point p = true := by
          by_contra hne
          simp [quick_eq] at hq
          rcases hq with ⟨-, hq⟩
          exact hne hq
        exact listEq_eq this

theorem get_source_eq {c : Cache} {p : List F64} {r : GetResult}
    (h : c.get p = some r) : r.cache.source = c.source := by
  obtain ⟨source, value, point⟩ := c
  cases value with
  | none => cases Option.some.inj h; rfl
  | some v =>
    simp only [Cache.get] at h
    cases hq : quick_eq point p with
    | none => rw [hq] at h; cases h
    | some eqRes =>
      rw [hq] at h
      cases eqRes with
      | false => cases Option.some.inj h; rfl
      | true => cases Option.some.inj h; rfl

theorem get_some_elim {DIM : ℕ} {c : Cache} {p : List F64} {r : GetResult}
    (hinv : CacheInv DIM c) (hp : p.length = DIM) (h : c.get p = some r) :
    r.value = c.source p ∧ r.cache = ⟨c.source, some (c.source p), p⟩ ∧
      (r.sourceCalled = false ↔ ∃ v, c.value = some v ∧ listEq c.point p = true) := by
  obtain ⟨b, hb, hiff⟩ := get_total_spec hinv hp
  rw [h] at hb
  cases Option.some.inj hb
  exact ⟨rfl, rfl, hiff.symm⟩

/-- Constant-zero source, used to instantiate witnesses on concrete inputs. -/
def srcZero : List F64 → F64 := fun _ => F64.num 0

/-- Concrete doubling source of the scenario: returns `coordinates[0] * 2.0`
(a NaN coordinate propagates to a NaN output, as `f64` multiplication would). -/
def srcDouble : List F64 → F64 := fun p =>
  match p.head? with
  | some (F64.num x) => F64.num (x * 2)
  | _ => F64.nan

/-- Runs a sequence of `get` calls, recording for each call the returned value
and whether the source was invoked; `none` if any call hits the assertion. -/
def Cache.runTrace : Cache → List (List F64) → Option (List (F64 × Bool))
  | _, [] => some []
  | c, p :: ps =>
    match c.get p with
    | none => none
    | some r =>
      match r.cache.runTrace ps with
      | none => none
      | some t => some ((r.value, r.sourceCalled) :: t)

/-- Cumulative source-call counts along a trace, starting from a given count. -/
def callCounts : ℕ → List (F64 × Bool) → List ℕ
  | _, [] => []
  | n, e :: t =>
    (if e.2 then n + 1 else n) :: callCounts (if e.2 then n + 1 else n) t

/-- C1: Transparency — for every coordinate tuple `p` of length `DIM` and every
sequence of prior `get` calls (any reachable cache state), `Cache::get` returns
exactly the scalar the wrapped source would produce for `p`; the cache never
alters the mathematical result. -/
theorem cache_transparency {DIM : ℕ} {c : Cache} (p : List F64)
    (hreach : Reachable DIM c) (hp : p.length = DIM) :
    ∃ r, c.get p = some r ∧ r.value = c.source p := by
  obtain ⟨b, hb, -⟩ := get_total_spec (reachable_inv hreach) hp
  exact ⟨_, hb, rfl⟩

theorem cache_transparency_witness :
    ∃ r, (Cache.new srcZero).get [F64.num 3] = some r ∧
      r.value = (Cache.new srcZero).source [F64.num 3] :=
  cache_transparency [F64.num 3] (Reachable.init srcZero) rfl

/-- C5: Empty-state first call — `Cache::new` starts with an empty cached
entry (`value = None`, empty point vector), and the very first `get` on a
fresh adapter is a miss that invokes the source exactly once, for any input
tuple. -/
theorem cache_first_call_miss (source : List F64 → F64) (p : List F64) :
    (Cache.new source).value = none ∧ (Cache.new source).point = [] ∧
      (Cache.new source).get p =
        some ⟨source p, ⟨source, some (source p), p⟩, true⟩ :=
  ⟨rfl, rfl, rfl⟩

/-- C6: Cached-entry invariant — in every state reachable from construction by
`get` calls at a fixed dimension `DIM`, the cached scalar and cached point are
both absent or both present, and when present the stored point has length
exactly `DIM`.  (The model's only transition is `Cache.get` itself, mirroring
that the entry is mutated only by the adapter's own query operation.) -/
theorem cache_entry_invariant {DIM : ℕ} {c : Cache} (h : Reachable DIM c) :
    (c.value = none ∧ c.point = []) ∨
      (∃ v, c.value = some v ∧ c.point.length = DIM) := by
  rcases reachable_inv h with ⟨hv, hpt⟩ | ⟨hlen, hv⟩
  · exact Or.inl ⟨hv, hpt⟩
  · exact Or.inr ⟨_, hv, hlen⟩

theorem cache_entry_invariant_witness :
    ((Cache.new srcZero).value = none ∧ (Cache.new srcZero).point = []) ∨
      (∃ v, (Cache.new srcZero).value = some v ∧
        (Cache.new srcZero).point.length = 1) :=
  cache_entry_invariant (Reachable.init srcZero)

/-- C8: Frame — a `get` call mutates at most the cached entry (the `value` and
`point` slots): the wrapped `source` field of the resulting cache state is the
one of the starting state, and the model has no other observable effect. -/
theorem cache_get_frame (c : Cache) (p : List F64) (r : GetResult)
    (h : c.get p = some r) : r.cache.source = c.source :=
  get_source_eq h

theorem cache_get_frame_witness :
    (Cache.mk srcZero (some (F64.num 0)) [F64.num 3]).source =
      (Cache.new srcZero).source :=
  cache_get_frame (Cache.new srcZero) [F64.num 3]
    ⟨F64.num 0, Cache.mk srcZero (some (F64.num 0)) [F64.num 3], true⟩ rfl

/-- C9: NaN inputs always miss — for every input tuple containing at least one
NaN component, every `get` call in every reachable state (in particular right
after a call on the bit-identical tuple) invokes the source, because the
element-wise comparison uses IEEE `f64` equality under which NaN is unequal to
itself. -/
theorem cache_nan_always_miss {DIM : ℕ} {c : Cache} {p : List F64}
    (h : Reachable DIM c) (hp : p.length = DIM) (hnan : F64.nan ∈ p) :
    ∃ r, c.get p = some r ∧ r.sourceCalled = true := by
  obtain ⟨b, hb, hiff⟩ := get_total_spec (reachable_inv h) hp
  refine ⟨_, hb, ?_⟩
  show b = true
  rcases Bool.eq_false_or_eq_true b with hbt | hbf
  · exact hbt
  · obtain ⟨v, -, hlq⟩ := hiff.2 hbf
    rw [listEq_nan c.point hnan] at hlq
    cases hlq

theorem cache_nan_always_miss_witness :
    ∃ r, (Cache.mk srcZero (some (F64.num 0)) [F64.nan]).get [F64.nan] =
      some r ∧ r.sourceCalled = true :=
  cache_nan_always_miss
    (Reachable.step (Reachable.init srcZero) rfl
      (rfl : (Cache.new srcZero).get [F64.nan] =
        some ⟨F64.num 0, Cache.mk srcZero (some (F64.num 0)) [F64.nan], true⟩))
    rfl (List.mem_cons_self _ _)

/-- C10: the length assertion in `quick_eq` never fails across any sequence of
`get` calls at one fixed dimension `DIM`: in every reachable state, a call on a
length-`DIM` input returns a result rather than the `none` that models the
`assert_eq!` panic. -/
theorem quick_eq_assert_ok {DIM : ℕ} {c : Cache} (p : List F64)
    (h : Reachable DIM c) (hp : p.length = DIM) :
    (c.get p).isSome = true := by
  obtain ⟨b, hb, -⟩ := get_total_spec (reachable_inv h) hp
  rw [hb]
  rfl

theorem quick_eq_assert_ok_witness :
    ((Cache.new srcZero).get [F64.num 3]).isSome = true :=
  quick_eq_assert_ok [F64.num 3] (Reachable.init srcZero) rfl

/-- C2 counterexample: the claim fails on NaN inputs.  With the constant-zero
source, the second `get` on the identical tuple `[NaN]` invokes the source
again (`sourceCalled = true`), because NaN is `==`-unequal to itself, so a
second call on an identical tuple is not always free of a source invocation. -/
theorem cache_hit_nan_counterexample :
    ((Cache.new srcZero).get [F64.nan]).bind
        (fun r1 => (r1.cache.get [F64.nan]).map
          (fun r2 => (r2.value, r2.sourceCalled))) =
      some (F64.num 0, true) :=
  rfl

/-- C2 (amended): for every coordinate tuple `c1` of length `DIM` none of
whose components is NaN, after `get c1` returns `r1`, a second `get` on the
identical tuple returns the same value without invoking the source (and leaves
the state unchanged); moreover, in any call whatsoever, the source is not
invoked only when the stored point is element-wise equal to the input. -/
theorem cache_hit_correct_amended :
    (∀ (DIM : ℕ) (c : Cache) (c1 : List F64) (r1 : GetResult),
        Reachable DIM c → c1.length = DIM → F64.nan ∉ c1 →
        c.get c1 = some r1 →
        r1.cache.get c1 = some ⟨r1.value, r1.cache, false⟩) ∧
    (∀ (c : Cache) (p : List F64) (r : GetResult),
        c.get p = some r → r.sourceCalled = false → c.point = p) := by
  constructor
  · intro DIM c c1 r1 hreach h1 hnan hget1
    obtain ⟨hv1, hc1, -⟩ := get_some_elim (reachable_inv hreach) h1 hget1
    have hq : quick_eq c1 c1 = some (listEq c1 c1) := by simp [quick_eq]
    rw [hc1, hv1]
    simp [Cache.get, hq, listEq_self hnan]
  · intro c p r hget hc
    exact get_not_called_eq hget hc

theorem cache_hit_correct_amended_witness :
    (Cache.mk srcZero (some (F64.num 0)) [F64.num 3]).get [F64.num 3] =
      some ⟨F64.num 0, Cache.mk srcZero (some (F64.num 0)) [F64.num 3], false⟩ :=
  cache_hit_correct_amended.1 1 (Cache.new srcZero) [F64.num 3]
    ⟨F64.num 0, Cache.mk srcZero (some (F64.num 0)) [F64.num 3], true⟩
    (Reachable.init srcZero) rfl (by decide) rfl

/-- C3: Miss on change — after `get c1` (from any reachable state), a `get` on
a tuple `c2` of the same length that differs from `c1` in at least one element
invokes the source once more with `c2`, overwrites both slots with the new
pair, and returns the fresh source result for `c2`. -/
theorem cache_miss_on_change {DIM : ℕ} {c : Cache} (c1 c2 : List F64)
    (r1 : GetResult) (hreach : Reachable DIM c) (h1 : c1.length = DIM)
    (h2 : c2.length = DIM) (hne : c1 ≠ c2) (hget1 : c.get c1 = some r1) :
    r1.cache.get c2 =
      some ⟨c.source c2, ⟨c.source, some (c.source c2), c2⟩, true⟩ := by
  obtain ⟨-, hc1, -⟩ := get_some_elim (reachable_inv hreach) h1 hget1
  have hq : quick_eq c1 c2 = some (listEq c1 c2) := by
    simp [quick_eq, h1, h2]
  have hlq : listEq c1 c2 = false := by
    rcases Bool.eq_false_or_eq_true (listEq c1 c2) with ht | hf
    · exact absurd (listEq_eq ht) hne
    · exact hf
  rw [hc1]
  simp [Cache.get, hq, hlq]

theorem cache_miss_on_change_witness :
    (Cache.mk srcZero (some (F64.num 0)) [F64.num 3]).get [F64.num 4] =
      some ⟨F64.num 0, Cache.mk srcZero (some (F64.num 0)) [F64.num 4], true⟩ :=
  cache_miss_on_change [F64.num 3] [F64.num 4]
    ⟨F64.num 0, Cache.mk srcZero (some (F64.num 0)) [F64.num 3], true⟩
    (Reachable.init srcZero) rfl rfl (by decide) rfl

/-- C4: Single-slot eviction — after `get c1` then `get c2` with `c1 ≠ c2`
(equal lengths `DIM`), the cache holds only the most recent pair (its point is
`c2` and its value the source output at `c2`), and a subsequent `get c1` is a
miss that invokes the source again. -/
theorem cache_single_slot {DIM : ℕ} {c : Cache} (c1 c2 : List F64)
    (r1 r2 : GetResult) (hreach : Reachable DIM c) (h1 : c1.length = DIM)
    (h2 : c2.length = DIM) (hne : c1 ≠ c2) (hget1 : c.get c1 = some r1)
    (hget2 : r1.cache.get c2 = some r2) :
    r2.cache.point = c2 ∧ r2.cache.value = some (r2.cache.source c2) ∧
      ∃ r3, r2.cache.get c1 = some r3 ∧ r3.sourceCalled = true := by
  have hinv1 : CacheInv DIM r1.cache := inv_step (reachable_inv hreach) h1 hget1
  obtain ⟨-, hc2, -⟩ := get_some_elim hinv1 h2 hget2
  have hinv2 : CacheInv DIM r2.cache := inv_step hinv1 h2 hget2
  obtain ⟨b, hb, hiff⟩ := get_total_spec hinv2 h1
  refine ⟨by rw [hc2], by rw [hc2], _, hb, ?_⟩
  show b = true
  rcases Bool.eq_false_or_eq_true b with hbt | hbf
  · exact hbt
  · obtain ⟨v, -, hlq⟩ := hiff.2 hbf
    have hpt := listEq_eq hlq
    rw [hc2] at hpt
    exact absurd hpt.symm hne

theorem cache_single_slot_witness :
    (Cache.mk srcZero (some (F64.num 0)) [F64.num 4]).point = [F64.num 4] ∧
      (Cache.mk srcZero (some (F64.num 0)) [F64.num 4]).value =
        some ((Cache.mk srcZero (some (F64.num 0)) [F64.num 4]).source
          [F64.num 4]) ∧
      ∃ r3, (Cache.mk srcZero (some (F64.num 0)) [F64.num 4]).get [F64.num 3] =
        some r3 ∧ r3.sourceCalled = true :=
  cache_single_slot [F64.num 3] [F64.num 4]
    ⟨F64.num 0, Cache.mk srcZero (some (F64.num 0)) [F64.num 3], true⟩
    ⟨F64.num 0, Cache.mk srcZero (some (F64.num 0)) [F64.num 4], true⟩
    (Reachable.init srcZero) rfl rfl (by decide) rfl rfl

/-- C7: Scenario — with the doubling source, the call sequence `[3.0]`,
`[3.0]`, `[4.0]`, `[3.0]` on a fresh adapter yields the values `6.0`, `6.0`,
`8.0`, `6.0`, the source being invoked on calls 1, 3 and 4 only, so the
cumulative source-call counts are `1, 1, 2, 3`. -/
theorem cache_scenario :
    (Cache.new srcDouble).runTrace
        [[F64.num 3], [F64.num 3], [F64.num 4], [F64.num 3]] =
      some [(F64.num 6, true), (F64.num 6, false), (F64.num 8, true),
        (F64.num 6, true)] ∧
    callCounts 0 [(F64.num 6, true), (F64.num 6, false), (F64.num 8, true),
        (F64.num 6, true)] = [1, 1, 2, 3] := by
  constructor
  · have h33 : ((3 : ℚ) == 3) = true := by rw [beq_iff_eq]
    have h34 : ((3 : ℚ) == 4) = false := by rw [beq_eq_false_iff_ne]; norm_num
    have h43 : ((4 : ℚ) == 3) = false := by rw [beq_eq_false_iff_ne]; norm_num
    norm_num [Cache.runTrace, Cache.get, Cache.new, srcDouble, quick_eq,
      listEq, F64.beq, h33, h34, h43]
  · rfl
